import Mathlib

/-
  Shallow embedding of the word-of-wisdom proof-of-work server.

  Sources embedded:
  - internal/pow (quotes.go, pow section): Challenge, StringForHash, Solve,
    Verify, LeadingZeroBits.  SHA-256 is an external library primitive; the
    embedding is parametric in the hash function (a map from the hashed
    string to its digest bytes), and time.Now() becomes an explicit `now`
    argument.
  - internal/ratelimit: Limiter, bucket, Allow, Reset, AdaptiveDifficulty.
    Go float64 token arithmetic is embedded over the rationals;
    time.Time / elapsed seconds become rational timestamps.
  - internal/server handleConnection: the effective-difficulty computation
    and the fixed "quote" resource identifier.
-/

namespace WoW

/-! ## PoW engine -/

/-- Inner loop of `LeadingZeroBits` over one non-zero byte:
`for i := 7; i >= 0; i-- { if b & (1<<i) == 0 { count++ } else { return count } }`.
The first argument is the byte, the second the remaining bit positions
(`i+1` when the next tested bit is `i`), the third the accumulated count. -/
def byteLZ (b : Nat) : Nat → Nat → Nat
  | 0, count => count
  | i + 1, count => if b &&& (1 <<< i) = 0 then byteLZ b i (count + 1) else count

/-- `LeadingZeroBits` from internal/pow: counts leading zero bits of a digest,
whole zero bytes contribute 8, the first non-zero byte is scanned bit by bit
from the most significant bit. Digest bytes are naturals below 256. -/
def LeadingZeroBits : List Nat → Nat
  | [] => 0
  | b :: rest => if b = 0 then 8 + LeadingZeroBits rest else byteLZ b 8 0

/-- `pow.Challenge`: the challenge value object. Go `int`/`int64` fields are
embedded as `Int`. -/
structure Challenge where
  ver : String
  alg : String
  bits : Int
  ts : Int
  expiresIn : Int
  resource : String
  salt : String
  deriving DecidableEq, Repr

/-- `Challenge.StringForHash`: the canonical challenge string
`"ver:alg:bits:ts:expires_in:resource:salt"` (Go `fmt.Sprintf` with `%s`/`%d`). -/
def Challenge.StringForHash (c : Challenge) : String :=
  c.ver ++ ":" ++ c.alg ++ ":" ++ toString c.bits ++ ":" ++ toString c.ts ++ ":" ++
    toString c.expiresIn ++ ":" ++ c.resource ++ ":" ++ c.salt

/-- `pow.Generate` with the two effectful ingredients (current time and the
random salt) passed explicitly: it fills the fixed version and algorithm
fields and copies its arguments. -/
def Generate (bits expiresIn : Int) (resource : String) (now : Int) (salt : String) :
    Challenge :=
  { ver := "1", alg := "sha256", bits := bits, ts := now, expiresIn := expiresIn,
    resource := resource, salt := salt }

/-- The loop of `pow.Solve`, starting at candidate nonce `i` with `remaining`
iterations left. `hash` is the SHA-256 digest function (string to bytes). -/
def solveFrom (hash : String → List Nat) (c : Challenge) : Nat → Nat → Option String
  | _, 0 => none
  | i, r + 1 =>
    let nonce := toString i
    let input := c.StringForHash ++ ":" ++ nonce
    if c.bits ≤ (LeadingZeroBits (hash input) : Int) then some nonce
    else solveFrom hash c (i + 1) r

/-- `pow.Solve`: tries nonces `0, 1, 2, …` and returns the first whose digest
has at least `c.bits` leading zero bits, or `none` (the exhaustion error)
after `maxIterations` attempts. -/
def Solve (hash : String → List Nat) (c : Challenge) (maxIterations : Nat) :
    Option String :=
  solveFrom hash c 0 maxIterations

/-- The distinct failure reasons of `pow.Verify`, in source order. -/
inductive VerifyError where
  | resourceMismatch
  | notYetValid
  | expired
  | insufficientPoW
  deriving DecidableEq, Repr

/-- `pow.Verify`: resource match, then timestamp window `ts ≤ now ≤ ts+expiresIn`,
then the PoW difficulty check; `none` means success. `now` is the explicit
evaluation time (Go `time.Now().Unix()`). -/
def Verify (hash : String → List Nat) (c : Challenge) (solution : String)
    (resource : String) (now : Int) : Option VerifyError :=
  if c.resource ≠ resource then some .resourceMismatch
  else if now < c.ts then some .notYetValid
  else if now > c.ts + c.expiresIn then some .expired
  else
    let input := c.StringForHash ++ ":" ++ solution
    let actualBits := LeadingZeroBits (hash input)
    if (actualBits : Int) < c.bits then some .insufficientPoW
    else none

/-! ## Rate limiter and adaptive difficulty -/

/-- `ratelimit.AdaptiveDifficulty`: the step function from attempt count to
adjusted difficulty, capped at `baseBits + 4`. -/
def AdaptiveDifficulty (baseBits attempts : Int) : Int :=
  if attempts ≤ 2 then baseBits
  else if attempts ≤ 5 then baseBits + 1
  else if attempts ≤ 10 then baseBits + 2
  else if attempts ≤ 20 then baseBits + 3
  else baseBits + 4

/-- `ratelimit.bucket`: token count and last-refill time as rationals
(float64 / time.Time in the source), plus the cumulative attempt counter. -/
structure Bucket where
  tokens : ℚ
  lastCheck : ℚ
  attempts : Int
  deriving DecidableEq, Repr

/-- `ratelimit.Limiter`: the bucket table keyed by the string form of the IP,
and the configured rate and capacity. -/
structure LimiterState where
  buckets : String → Option Bucket
  rate : Int
  capacity : Int

/-- `ratelimit.NewLimiter`: empty bucket table with the given rate and capacity. -/
def NewLimiter (rate capacity : Int) : LimiterState :=
  { buckets := fun _ => none, rate := rate, capacity := capacity }

/-- `Limiter.Allow` with the current time explicit. A `none` address is the
nil-IP case. Returns `(allowed, attempts, updated state)`. -/
def Allow (l : LimiterState) (ip : Option String) (now : ℚ) :
    Bool × Int × LimiterState :=
  match ip with
  | none => (true, 0, l)
  | some key =>
    let b :=
      match l.buckets key with
      | some b => b
      | none => { tokens := (l.capacity : ℚ), lastCheck := now, attempts := 0 }
    let elapsed := now - b.lastCheck
    let tokens1 := b.tokens + elapsed * (l.rate : ℚ)
    let tokens2 := if tokens1 > (l.capacity : ℚ) then (l.capacity : ℚ) else tokens1
    if tokens2 ≥ 1 then
      let b2 : Bucket := { tokens := tokens2 - 1, lastCheck := now, attempts := b.attempts + 1 }
      (true, b2.attempts,
        { l with buckets := fun k => if k = key then some b2 else l.buckets k })
    else
      let b2 : Bucket := { tokens := tokens2, lastCheck := now, attempts := b.attempts + 1 }
      (false, b2.attempts,
        { l with buckets := fun k => if k = key then some b2 else l.buckets k })

/-- `Limiter.Reset`: deletes the bucket for the address; a nil address is a
no-op. -/
def Reset (l : LimiterState) (ip : Option String) : LimiterState :=
  match ip with
  | none => l
  | some key => { l with buckets := fun k => if k = key then none else l.buckets k }

/-! ## Connection handler fragment -/

/-- The effective-difficulty computation of `handleConnection`
(`bits := cfg.Bits; if cfg.AdaptiveBits && attempts > 0 { bits = AdaptiveDifficulty(cfg.Bits, attempts) }`). -/
def effectiveBits (adaptiveBits : Bool) (baseBits attempts : Int) : Int :=
  if adaptiveBits && attempts > 0 then AdaptiveDifficulty baseBits attempts else baseBits

/-- The bucket an `Allow` call starts from: the stored bucket when present,
otherwise the lazily created one (`tokens = capacity`, `lastCheck = now`,
`attempts = 0`). -/
def lookupOrFresh (l : LimiterState) (key : String) (now : ℚ) : Bucket :=
  match l.buckets key with
  | some b => b
  | none => { tokens := (l.capacity : ℚ), lastCheck := now, attempts := 0 }

/-- The refilled token count of the spec:
`min(capacity, tokens + elapsedSeconds * rate)`. -/
def refilled (l : LimiterState) (b : Bucket) (now : ℚ) : ℚ :=
  min (l.capacity : ℚ) (b.tokens + (now - b.lastCheck) * (l.rate : ℚ))

/-- A call against the limiter, as issued by connection handlers: `Allow` or
`Reset` on some (possibly nil) address. -/
inductive LimiterOp where
  | allow (ip : Option String)
  | reset (ip : Option String)

/-- Run a timestamped sequence of limiter calls, threading the state. -/
def runOps (l : LimiterState) : List (LimiterOp × ℚ) → LimiterState
  | [] => l
  | (.allow ip, t) :: rest => runOps (Allow l ip t).2.2 rest
  | (.reset ip, _) :: rest => runOps (Reset l ip) rest

/-- The timestamps of an op sequence are non-decreasing and start no earlier
than the given time. -/
def TimesMono : ℚ → List (LimiterOp × ℚ) → Prop
  | _, [] => True
  | t0, (_, t) :: rest => t0 ≤ t ∧ TimesMono t rest

/-- The time of the last call in the sequence, or the start time when the
sequence is empty. -/
def endTime : ℚ → List (LimiterOp × ℚ) → ℚ
  | t0, [] => t0
  | _, (_, t) :: rest => endTime t rest

/-- Bucket-table invariant at time `T`: every stored bucket holds between 0
and `capacity` tokens and was last refilled no later than `T`. -/
def BucketsInv (l : LimiterState) (T : ℚ) : Prop :=
  ∀ k b, l.buckets k = some b →
    0 ≤ b.tokens ∧ b.tokens ≤ (l.capacity : ℚ) ∧ b.lastCheck ≤ T

/-- The bits of one byte, most significant first (the spec's reading order). -/
def byteBits (b : Nat) : List Bool :=
  [b.testBit 7, b.testBit 6, b.testBit 5, b.testBit 4,
   b.testBit 3, b.testBit 2, b.testBit 1, b.testBit 0]

/-- The bit string of a digest, byte by byte, most significant bit first. -/
def digestBits : List Nat → List Bool
  | [] => []
  | b :: rest => byteBits b ++ digestBits rest

/-- The count the spec describes: the length of the run of zero bits from
the most significant bit of the first byte up to the first one bit. -/
def specLeadingZeros (d : List Nat) : Nat :=
  ((digestBits d).takeWhile (fun x => !x)).length

/-- A constant digest function used to instantiate the hash-parametric
theorems on concrete inputs. -/
def hash0 : String → List Nat := fun _ => [0, 0, 0, 0]

/-- A concrete challenge used to instantiate theorems on concrete inputs. -/
def c0 : Challenge :=
  { ver := "1", alg := "sha256", bits := 8, ts := 0, expiresIn := 60,
    resource := "quote", salt := "ab" }

/-! ## Theorems -/

/-- The upper clamp of the source is the `min` of the spec. -/
theorem clamp_eq_min (cap t : ℚ) : (if t > cap then cap else t) = min cap t := by
  rcases le_or_lt t cap with h | h
  · rw [if_neg (not_lt.mpr h), min_eq_right h]
  · rw [if_pos h, min_eq_left h.le]

/-- `Allow` on a non-nil address, written with the spec's `min`-refill: the
bucket (stored or fresh) is refilled, restamped with `now`, its attempts
counter incremented, and a token consumed exactly when at least one is
available. -/
theorem Allow_some_eq (l : LimiterState) (key : String) (now : ℚ) :
    Allow l (some key) now =
      (if refilled l (lookupOrFresh l key now) now ≥ 1 then
        (true, (lookupOrFresh l key now).attempts + 1,
         { l with buckets := fun k =>
             if k = key then
               some { tokens := refilled l (lookupOrFresh l key now) now - 1,
                      lastCheck := now,
                      attempts := (lookupOrFresh l key now).attempts + 1 }
             else l.buckets k })
      else
        (false, (lookupOrFresh l key now).attempts + 1,
         { l with buckets := fun k =>
             if k = key then
               some { tokens := refilled l (lookupOrFresh l key now) now,
                      lastCheck := now,
                      attempts := (lookupOrFresh l key now).attempts + 1 }
             else l.buckets k })) := by
  cases hb : l.buckets key with
  | none =>
    simp only [Allow, lookupOrFresh, refilled, hb]
    rw [clamp_eq_min]
  | some b =>
    simp only [Allow, lookupOrFresh, refilled, hb]
    rw [clamp_eq_min]

/-- C4: on a non-nil address, `Allow` refills the bucket to
`min(capacity, tokens + elapsed * rate)` and stamps it with `now`; if the
refilled count is at least 1 it consumes one token and returns
`(true, attempts + 1)`, otherwise it returns `(false, attempts + 1)` with the
tokens left as refilled — and in both branches the stored attempts counter
grows by exactly 1. -/
theorem C4_allow_refill_and_count (l : LimiterState) (key : String) (now : ℚ) :
    Allow l (some key) now =
      (if refilled l (lookupOrFresh l key now) now ≥ 1 then
        (true, (lookupOrFresh l key now).attempts + 1,
         { l with buckets := fun k =>
             if k = key then
               some { tokens := refilled l (lookupOrFresh l key now) now - 1,
                      lastCheck := now,
                      attempts := (lookupOrFresh l key now).attempts + 1 }
             else l.buckets k })
      else
        (false, (lookupOrFresh l key now).attempts + 1,
         { l with buckets := fun k =>
             if k = key then
               some { tokens := refilled l (lookupOrFresh l key now) now,
                      lastCheck := now,
                      attempts := (lookupOrFresh l key now).attempts + 1 }
             else l.buckets k })) ∧
    (Allow l (some key) now).2.1 = (lookupOrFresh l key now).attempts + 1 := by
  refine ⟨Allow_some_eq l key now, ?_⟩
  rw [Allow_some_eq l key now]
  split <;> rfl

/-- C3: `AdaptiveDifficulty(20, ·)` follows the documented step table, is
monotone non-decreasing in the attempt count, and never exceeds
`baseBits + 4` for any base. -/
theorem C3_adaptive_difficulty_table :
    (∀ a : Int, 1 ≤ a →
      ((a ≤ 2 → AdaptiveDifficulty 20 a = 20) ∧
       (3 ≤ a → a ≤ 5 → AdaptiveDifficulty 20 a = 21) ∧
       (6 ≤ a → a ≤ 10 → AdaptiveDifficulty 20 a = 22) ∧
       (11 ≤ a → a ≤ 20 → AdaptiveDifficulty 20 a = 23) ∧
       (21 ≤ a → AdaptiveDifficulty 20 a = 24))) ∧
    (∀ a b : Int, a ≤ b → AdaptiveDifficulty 20 a ≤ AdaptiveDifficulty 20 b) ∧
    (∀ base a : Int, AdaptiveDifficulty base a ≤ base + 4) := by
  unfold AdaptiveDifficulty
  refine ⟨fun a ha => ?_, fun a b hab => ?_, fun base a => ?_⟩ <;>
    (repeat' split) <;> omega

/-- C3 witness: the table at `attempts = 7`, monotonicity from 7 to 50, and
the cap at base 13, `attempts = 100`. -/
theorem C3_witness :
    AdaptiveDifficulty 20 7 = 22 ∧
      AdaptiveDifficulty 20 7 ≤ AdaptiveDifficulty 20 50 ∧
      AdaptiveDifficulty 13 100 ≤ 13 + 4 := by
  obtain ⟨h1, h2, h3⟩ := C3_adaptive_difficulty_table
  exact ⟨(h1 7 (by norm_num)).2.2.1 (by norm_num) (by norm_num),
    h2 7 50 (by norm_num), h3 13 100⟩

/-- C2 counterexample: with adaptive difficulty on and `attempts = 1`, the
handler sets `bits = AdaptiveDifficulty(20, 1) = 20`, not
`20 + AdaptiveDifficulty(20, 1) = 40`. -/
theorem C2_counterexample :
    ¬ effectiveBits true 20 1 = 20 + AdaptiveDifficulty 20 1 := by decide

/-- C2 (amended): when adaptive difficulty is enabled and `attempts > 0`, the
effective difficulty equals `AdaptiveDifficulty(baseBits, attempts)` — which
lies between `baseBits` and `baseBits + 4` — and when adaptive difficulty is
disabled or `attempts ≤ 0` it equals `baseBits`. -/
theorem C2_effective_bits (adaptiveBits : Bool) (base attempts : Int) :
    (adaptiveBits = true → 0 < attempts →
      effectiveBits adaptiveBits base attempts = AdaptiveDifficulty base attempts ∧
      base ≤ effectiveBits adaptiveBits base attempts ∧
      effectiveBits adaptiveBits base attempts ≤ base + 4) ∧
    ((adaptiveBits = false ∨ attempts ≤ 0) →
      effectiveBits adaptiveBits base attempts = base) := by
  constructor
  · rintro rfl hpos
    have hcond : effectiveBits true base attempts = AdaptiveDifficulty base attempts := by
      unfold effectiveBits
      simp [hpos]
    refine ⟨hcond, ?_, ?_⟩ <;> rw [hcond] <;> unfold AdaptiveDifficulty <;>
      (repeat' split) <;> omega
  · rintro (rfl | hle)
    · rfl
    · unfold effectiveBits
      simp [not_lt.mpr hle]

/-- C2 witness: adaptive on with one attempt, and adaptive off. -/
theorem C2_witness :
    effectiveBits true 20 3 = AdaptiveDifficulty 20 3 ∧
      effectiveBits false 20 3 = 20 := by
  refine ⟨((C2_effective_bits true 20 3).1 rfl (by norm_num)).1,
    (C2_effective_bits false 20 3).2 (Or.inl rfl)⟩

/-- C7: when `capacity ≥ 1`, `Reset` deletes the bucket, and the next `Allow`
on that address behaves as on an unseen address: it recreates the bucket with
full tokens (one of which it consumes), and returns `(true, 1)`. -/
theorem C7_reset_then_allow (l : LimiterState) (key : String) (now : ℚ)
    (hcap : 1 ≤ l.capacity) :
    (Reset l (some key)).buckets key = none ∧
    (Allow (Reset l (some key)) (some key) now).1 = true ∧
    (Allow (Reset l (some key)) (some key) now).2.1 = 1 ∧
    (Allow (Reset l (some key)) (some key) now).2.2.buckets key =
      some { tokens := (l.capacity : ℚ) - 1, lastCheck := now, attempts := 1 } := by
  have hdel : (Reset l (some key)).buckets key = none := by
    simp [Reset]
  have hcapQ : (1 : ℚ) ≤ ((Reset l (some key)).capacity : ℚ) := by
    show (1 : ℚ) ≤ (l.capacity : ℚ)
    exact_mod_cast hcap
  have htok : ((Reset l (some key)).capacity : ℚ) + (now - now) * ((Reset l (some key)).rate : ℚ) =
      ((Reset l (some key)).capacity : ℚ) := by ring
  refine ⟨hdel, ?_, ?_, ?_⟩ <;>
  · simp only [Allow, hdel, htok]
    rw [if_neg (lt_irrefl _), if_pos hcapQ]
    try simp [Reset]

/-- C8: a nil address is always allowed with `attempts = 0` and the limiter
state untouched, and `Reset` on a nil address leaves the bucket table
unchanged. -/
theorem C8_nil_address (l : LimiterState) (now : ℚ) :
    Allow l none now = (true, 0, l) ∧ Reset l none = l :=
  ⟨rfl, rfl⟩

/-- Updating one bucket to a well-bounded value preserves the table invariant. -/
theorem updated_inv (l : LimiterState) (key : String) (now T : ℚ) (b2 : Bucket)
    (hinv : BucketsInv l T) (hT : T ≤ now)
    (h1 : 0 ≤ b2.tokens) (h2 : b2.tokens ≤ (l.capacity : ℚ)) (h3 : b2.lastCheck ≤ now) :
    BucketsInv
      { l with buckets := fun k => if k = key then some b2 else l.buckets k } now := by
  intro k b hb
  have hb2 : (if k = key then some b2 else l.buckets k) = some b := hb
  by_cases hk : k = key
  · rw [if_pos hk] at hb2
    injection hb2 with h
    subst h
    exact ⟨h1, h2, h3⟩
  · rw [if_neg hk] at hb2
    obtain ⟨g1, g2, g3⟩ := hinv k b hb2
    exact ⟨g1, g2, g3.trans hT⟩

/-- One `Allow` call preserves the bucket invariant, advancing its time bound. -/
theorem allow_step_inv (l : LimiterState) (ip : Option String) (T now : ℚ)
    (hrate : 0 ≤ l.rate) (hcap : 0 ≤ l.capacity)
    (hinv : BucketsInv l T) (hT : T ≤ now) :
    BucketsInv (Allow l ip now).2.2 now := by
  have hrateQ : (0 : ℚ) ≤ (l.rate : ℚ) := by exact_mod_cast hrate
  have hcapQ : (0 : ℚ) ≤ (l.capacity : ℚ) := by exact_mod_cast hcap
  cases ip with
  | none =>
    intro k b hb
    obtain ⟨g1, g2, g3⟩ := hinv k b hb
    exact ⟨g1, g2, g3.trans hT⟩
  | some key =>
    have hb0 : 0 ≤ (lookupOrFresh l key now).tokens ∧
        (lookupOrFresh l key now).tokens ≤ (l.capacity : ℚ) ∧
        (lookupOrFresh l key now).lastCheck ≤ now := by
      unfold lookupOrFresh
      cases hkey : l.buckets key with
      | none => exact ⟨hcapQ, le_refl _, le_refl now⟩
      | some b =>
        obtain ⟨g1, g2, g3⟩ := hinv key b hkey
        exact ⟨g1, g2, g3.trans hT⟩
    have ht2 : 0 ≤ refilled l (lookupOrFresh l key now) now ∧
        refilled l (lookupOrFresh l key now) now ≤ (l.capacity : ℚ) := by
      unfold refilled
      refine ⟨le_min hcapQ ?_, min_le_left _ _⟩
      exact add_nonneg hb0.1 (mul_nonneg (sub_nonneg.mpr hb0.2.2) hrateQ)
    rw [Allow_some_eq l key now]
    split
    · next h =>
      refine updated_inv l key now T _ hinv hT ?_ ?_ (le_refl now)
      · show (0 : ℚ) ≤ refilled l (lookupOrFresh l key now) now - 1
        linarith
      · show refilled l (lookupOrFresh l key now) now - 1 ≤ (l.capacity : ℚ)
        linarith [ht2.2]
    · exact updated_inv l key now T _ hinv hT ht2.1 ht2.2 (le_refl now)

/-- One `Reset` call preserves the bucket invariant, advancing its time bound. -/
theorem reset_step_inv (l : LimiterState) (ip : Option String) (T now : ℚ)
    (hinv : BucketsInv l T) (hT : T ≤ now) :
    BucketsInv (Reset l ip) now := by
  cases ip with
  | none =>
    intro k b hb
    obtain ⟨g1, g2, g3⟩ := hinv k b hb
    exact ⟨g1, g2, g3.trans hT⟩
  | some key =>
    intro k b hb
    have hb2 : (if k = key then none else l.buckets k) = some b := hb
    by_cases hk : k = key
    · rw [if_pos hk] at hb2
      simp at hb2
    · rw [if_neg hk] at hb2
      obtain ⟨g1, g2, g3⟩ := hinv k b hb2
      exact ⟨g1, g2, g3.trans hT⟩

/-- `Allow` never changes the configured rate or capacity. -/
theorem Allow_fields (l : LimiterState) (ip : Option String) (now : ℚ) :
    (Allow l ip now).2.2.rate = l.rate ∧ (Allow l ip now).2.2.capacity = l.capacity := by
  cases ip with
  | none => exact ⟨rfl, rfl⟩
  | some key =>
    rw [Allow_some_eq l key now]
    split <;> exact ⟨rfl, rfl⟩

/-- `Reset` never changes the configured rate or capacity. -/
theorem Reset_fields (l : LimiterState) (ip : Option String) :
    (Reset l ip).rate = l.rate ∧ (Reset l ip).capacity = l.capacity := by
  cases ip with
  | none => exact ⟨rfl, rfl⟩
  | some key => exact ⟨rfl, rfl⟩

/-- Running any op sequence preserves the bucket invariant through to the
time of the last call. -/
theorem runOps_inv (ops : List (LimiterOp × ℚ)) :
    ∀ (l : LimiterState) (T : ℚ), 0 ≤ l.rate → 0 ≤ l.capacity →
      BucketsInv l T → TimesMono T ops →
      BucketsInv (runOps l ops) (endTime T ops) := by
  induction ops with
  | nil => exact fun l T _ _ hinv _ => hinv
  | cons p rest ih =>
    obtain ⟨op, t⟩ := p
    intro l T hrate hcap hinv hmono
    obtain ⟨hTt, hrest⟩ := hmono
    cases op with
    | allow ip =>
      show BucketsInv (runOps (Allow l ip t).2.2 rest) (endTime t rest)
      exact ih (Allow l ip t).2.2 t ((Allow_fields l ip t).1 ▸ hrate)
        ((Allow_fields l ip t).2 ▸ hcap)
        (allow_step_inv l ip T t hrate hcap hinv hTt) hrest
    | reset ip =>
      show BucketsInv (runOps (Reset l ip) rest) (endTime t rest)
      exact ih (Reset l ip) t ((Reset_fields l ip).1 ▸ hrate)
        ((Reset_fields l ip).2 ▸ hcap)
        (reset_step_inv l ip T t hinv hTt) hrest

/-- Running any op sequence never changes the configured capacity. -/
theorem runOps_capacity (ops : List (LimiterOp × ℚ)) :
    ∀ l : LimiterState, (runOps l ops).capacity = l.capacity := by
  induction ops with
  | nil => exact fun _ => rfl
  | cons p rest ih =>
    obtain ⟨op, t⟩ := p
    intro l
    cases op with
    | allow ip =>
      show (runOps (Allow l ip t).2.2 rest).capacity = l.capacity
      rw [ih, (Allow_fields l ip t).2]
    | reset ip =>
      show (runOps (Reset l ip) rest).capacity = l.capacity
      rw [ih, (Reset_fields l ip).2]

/-- C9: from a fresh limiter with `rate ≥ 0` and `capacity ≥ 0`, any sequence
of `Allow`/`Reset` calls with non-decreasing timestamps leaves every stored
bucket with `0 ≤ tokens ≤ capacity`: the refill clamps at capacity and a
token is consumed only when at least one is available. -/
theorem C9_token_bounds (rate capacity : Int) (T0 : ℚ) (ops : List (LimiterOp × ℚ))
    (hrate : 0 ≤ rate) (hcap : 0 ≤ capacity) (hmono : TimesMono T0 ops) :
    ∀ k b, (runOps (NewLimiter rate capacity) ops).buckets k = some b →
      0 ≤ b.tokens ∧ b.tokens ≤ (capacity : ℚ) := by
  have hinv0 : BucketsInv (NewLimiter rate capacity) T0 := by
    intro k b hb
    simp [NewLimiter] at hb
  have h := runOps_inv ops (NewLimiter rate capacity) T0 hrate hcap hinv0 hmono
  intro k b hb
  obtain ⟨g1, g2, _⟩ := h k b hb
  rw [runOps_capacity ops (NewLimiter rate capacity)] at g2
  exact ⟨g1, g2⟩

/-- C9 witness: rate 1, capacity 2; two `Allow` calls and a `Reset` at times
0, 1, 2 on one address, then an `Allow` on a second address, whose stored
bucket (1 token, stamped at time 2, one attempt) is inside the bounds. -/
theorem C9_witness :
    0 ≤ ({ tokens := 1, lastCheck := 2, attempts := 1 } : Bucket).tokens ∧
      ({ tokens := 1, lastCheck := 2, attempts := 1 } : Bucket).tokens ≤
        ((2 : Int) : ℚ) :=
  C9_token_bounds 1 2 0
    [(LimiterOp.allow (some "1.1.1.1"), 0), (LimiterOp.allow (some "1.1.1.1"), 1),
     (LimiterOp.reset (some "1.1.1.1"), 2), (LimiterOp.allow (some "2.2.2.2"), 2)]
    (by norm_num) (by norm_num) (by norm_num [TimesMono])
    "2.2.2.2" { tokens := 1, lastCheck := 2, attempts := 1 }
    (by simp [runOps, Allow, Reset, NewLimiter]; norm_num)

/-- `takeWhile` walks through a prefix on which the predicate always holds. -/
theorem takeWhile_append_all {α : Type} (p : α → Bool) (l1 l2 : List α)
    (h : ∀ x ∈ l1, p x = true) :
    (l1 ++ l2).takeWhile p = l1 ++ l2.takeWhile p := by
  induction l1 with
  | nil => rfl
  | cons a l1 ih =>
    have hpa := h a (List.mem_cons_self a l1)
    simp only [List.cons_append, List.takeWhile_cons, hpa, if_true]
    rw [ih (fun x hx => h x (List.mem_cons_of_mem a hx))]

/-- `takeWhile` stops inside a prefix containing an element that falsifies
the predicate. -/
theorem takeWhile_append_stop {α : Type} (p : α → Bool) (l1 l2 : List α)
    (h : ∃ x ∈ l1, p x = false) :
    (l1 ++ l2).takeWhile p = l1.takeWhile p := by
  induction l1 with
  | nil =>
    obtain ⟨x, hx, _⟩ := h
    cases hx
  | cons a l1 ih =>
    cases hpa : p a with
    | false => simp [List.takeWhile_cons, hpa]
    | true =>
      obtain ⟨x, hx, hpx⟩ := h
      rcases List.mem_cons.mp hx with rfl | hx2
      · rw [hpa] at hpx
        cases hpx
      · simp only [List.cons_append, List.takeWhile_cons, hpa, if_true]
        rw [ih ⟨x, hx2, hpx⟩]

set_option maxRecDepth 8192 in
/-- Per-byte agreement of the source's bit loop with the spec's count, checked
over all 256 byte values: for a non-zero byte the loop returns the length of
the zero-bit prefix, and the byte contributes a one bit that stops the scan. -/
theorem byteLZ_spec :
    ∀ b < 256, b ≠ 0 →
      byteLZ b 8 0 = ((byteBits b).takeWhile (fun x => !x)).length ∧
        ∃ x ∈ byteBits b, (!x) = false := by
  decide

/-- `LeadingZeroBits` agrees with the spec's zero-bit-run count on byte lists. -/
theorem LZB_eq_spec : ∀ d : List Nat, (∀ b ∈ d, b < 256) →
    LeadingZeroBits d = specLeadingZeros d := by
  intro d
  induction d with
  | nil => intro _; rfl
  | cons b rest ih =>
    intro hd
    have hb : b < 256 := hd b (List.mem_cons_self b rest)
    have hrest : ∀ x ∈ rest, x < 256 := fun x hx => hd x (List.mem_cons_of_mem b hx)
    by_cases hb0 : b = 0
    · subst hb0
      simp only [LeadingZeroBits, if_pos rfl]
      rw [ih hrest]
      unfold specLeadingZeros
      simp only [digestBits]
      rw [takeWhile_append_all _ _ _ (by decide)]
      rw [List.length_append]
      norm_num [byteBits]
    · simp only [LeadingZeroBits, if_neg hb0]
      obtain ⟨h1, h2⟩ := byteLZ_spec b hb hb0
      unfold specLeadingZeros
      simp only [digestBits]
      rw [takeWhile_append_stop _ _ _ h2]
      exact h1

/-- On an all-zero digest `LeadingZeroBits` counts every bit. -/
theorem LZB_all_zero : ∀ d : List Nat, (∀ b ∈ d, b = 0) →
    LeadingZeroBits d = 8 * d.length := by
  intro d
  induction d with
  | nil => intro _; rfl
  | cons b rest ih =>
    intro hd
    have hb : b = 0 := hd b (List.mem_cons_self b rest)
    subst hb
    have hstep : LeadingZeroBits (0 :: rest) = 8 + LeadingZeroBits rest := by
      show (if (0 : Nat) = 0 then 8 + LeadingZeroBits rest else byteLZ 0 8 0) = _
      rw [if_pos rfl]
    rw [hstep, ih (fun x hx => hd x (List.mem_cons_of_mem 0 hx))]
    simp only [List.length_cons]
    omega

/-- C5: on byte digests, `LeadingZeroBits` equals the length of the run of
zero bits counted from the most significant bit of the first byte up to the
first one bit, and equals `8 * len(D)` when every byte is zero. -/
theorem C5_leading_zero_bits (d : List Nat) (hd : ∀ b ∈ d, b < 256) :
    LeadingZeroBits d = specLeadingZeros d ∧
      ((∀ b ∈ d, b = 0) → LeadingZeroBits d = 8 * d.length) :=
  ⟨LZB_eq_spec d hd, LZB_all_zero d⟩

/-- C5 witness: the digest `[0, 31, 255]` has 11 leading zero bits under both
counts, and the all-zero digest `[0, 0, 0]` has all 24. -/
theorem C5_witness :
    LeadingZeroBits [0, 31, 255] = specLeadingZeros [0, 31, 255] ∧
      LeadingZeroBits [0, 0, 0] = 8 * [(0 : Nat), 0, 0].length := by
  refine ⟨(C5_leading_zero_bits [0, 31, 255] (by decide)).1,
    (C5_leading_zero_bits [0, 0, 0] (by decide)).2 (by decide)⟩

/-- Any nonce returned by the solver loop satisfies the difficulty target. -/
theorem solveFrom_sound (hash : String → List Nat) (c : Challenge) :
    ∀ r i nonce, solveFrom hash c i r = some nonce →
      c.bits ≤ (LeadingZeroBits (hash (c.StringForHash ++ ":" ++ nonce)) : Int) := by
  intro r
  induction r with
  | zero =>
    intro i nonce h
    cases h
  | succ r ih =>
    intro i nonce h
    simp only [solveFrom] at h
    split at h
    · next hcond =>
      injection h with h2
      subst h2
      exact hcond
    · exact ih (i + 1) nonce h

/-- C1: whenever `Solve` returns a nonce within the iteration budget,
`Verify` of that nonce against the challenge's own resource succeeds,
provided it is evaluated inside the challenge's validity window. -/
theorem C1_solve_verify (hash : String → List Nat) (c : Challenge)
    (maxIterations : Nat) (nonce : String) (now : Int)
    (hsolve : Solve hash c maxIterations = some nonce)
    (h1 : c.ts ≤ now) (h2 : now ≤ c.ts + c.expiresIn) :
    Verify hash c nonce c.resource now = none := by
  have hpow := solveFrom_sound hash c maxIterations 0 nonce hsolve
  simp only [Verify]
  rw [if_neg (fun h => h rfl), if_neg (not_lt.mpr h1), if_neg (not_lt.mpr h2),
    if_neg (not_lt.mpr hpow)]

/-- C1 witness: under the constant digest `hash0` the very first nonce `"0"`
solves `c0` (bits 8 against a 32-zero-bit digest), and `Verify` accepts it at
time 5 inside the window `[0, 60]`. -/
theorem C1_witness : Verify hash0 c0 "0" c0.resource 5 = none :=
  C1_solve_verify hash0 c0 1 "0" 5 (by decide) (by decide) (by decide)

/-- C6: for a resource-matching challenge with a positive validity window,
`Verify` reports `expired` when `now > ts + expiresIn` and the distinct
`notYetValid` when `now < ts`, whatever the nonce; and any resource mismatch
is reported as `resourceMismatch` regardless of PoW and timing. -/
theorem C6_verify_errors (hash : String → List Nat) (c : Challenge)
    (nonce res : String) (now : Int) :
    (c.resource = res → 0 < c.expiresIn → c.ts + c.expiresIn < now →
      Verify hash c nonce res now = some VerifyError.expired) ∧
    (c.resource = res → now < c.ts →
      Verify hash c nonce res now = some VerifyError.notYetValid) ∧
    (c.resource ≠ res →
      Verify hash c nonce res now = some VerifyError.resourceMismatch) := by
  refine ⟨fun hres hpos hlate => ?_, fun hres hearly => ?_, fun hres => ?_⟩
  · simp only [Verify]
    rw [if_neg (fun h => h hres), if_neg (by omega : ¬ now < c.ts), if_pos hlate]
  · simp only [Verify]
    rw [if_neg (fun h => h hres), if_pos hearly]
  · simp only [Verify]
    rw [if_pos hres]

/-- C6 witness: `c0` (resource `"quote"`, window `[0, 60]`) is expired at
time 100 even though `hash0` would satisfy the PoW. -/
theorem C6_witness : Verify hash0 c0 "0" "quote" 100 = some VerifyError.expired :=
  (C6_verify_errors hash0 c0 "0" "quote" 100).1 rfl (by decide) (by decide)

/-- C10: a challenge the server generated for resource `"quote"` and verifies
against the same fixed `"quote"` can never fail with a resource mismatch: a
verification failure is always temporal or insufficient work. -/
theorem C10_server_resource (hash : String → List Nat)
    (bits expiresIn ts now : Int) (salt nonce : String) :
    Verify hash (Generate bits expiresIn "quote" ts salt) nonce "quote" now ≠
      some VerifyError.resourceMismatch ∧
    (∀ e, Verify hash (Generate bits expiresIn "quote" ts salt) nonce "quote" now =
        some e →
      e = VerifyError.notYetValid ∨ e = VerifyError.expired ∨
        e = VerifyError.insufficientPoW) := by
  have hres : (Generate bits expiresIn "quote" ts salt).resource = "quote" := rfl
  have hsecond : ∀ e,
      Verify hash (Generate bits expiresIn "quote" ts salt) nonce "quote" now =
        some e →
      e = VerifyError.notYetValid ∨ e = VerifyError.expired ∨
        e = VerifyError.insufficientPoW := by
    intro e h
    simp only [Verify] at h
    split at h
    · next hne => exact absurd hres hne
    · split at h
      · injection h with h2
        exact Or.inl h2.symm
      · split at h
        · injection h with h2
          exact Or.inr (Or.inl h2.symm)
        · split at h
          · injection h with h2
            exact Or.inr (Or.inr h2.symm)
          · exact Option.noConfusion h
  refine ⟨fun h => ?_, hsecond⟩
  rcases hsecond VerifyError.resourceMismatch h with h1 | h1 | h1 <;>
    exact VerifyError.noConfusion h1

/-- C10 witness: a server challenge issued at time 10 and verified at time 0
fails as not-yet-valid, which is among the non-mismatch reasons. -/
theorem C10_witness :
    VerifyError.notYetValid = VerifyError.notYetValid ∨
      VerifyError.notYetValid = VerifyError.expired ∨
      VerifyError.notYetValid = VerifyError.insufficientPoW :=
  (C10_server_resource hash0 8 60 10 0 "ab" "0").2 VerifyError.notYetValid (by decide)

/-- C7 witness: capacity 10, rate 5, address `"1.2.3.4"` at time 0. -/
theorem C7_witness :
    (Allow (Reset (NewLimiter 5 10) (some "1.2.3.4")) (some "1.2.3.4") 0).1 = true ∧
      (Allow (Reset (NewLimiter 5 10) (some "1.2.3.4")) (some "1.2.3.4") 0).2.1 = 1 := by
  have h := C7_reset_then_allow (NewLimiter 5 10) "1.2.3.4" 0 (by norm_num [NewLimiter])
  exact ⟨h.2.1, h.2.2.1⟩

end WoW
